import Mathlib

/-!
Shallow embedding of the Cobalt LRU cache (`src/mod.ts`, class `Cobalt` and
class `CobaltEntry`).

JavaScript heap references are modelled by an arena: the cache owns a list
`nodes : List CobaltEntry` and every `next`/`prev` pointer, the `head`/`tail`
references and the index values are arena indices (`Option Nat`).  A fresh
node is appended at the end of the arena, so the id of a node created when
the arena had length `n` is `n`.  Mutating a field of a node through a
reference becomes `List.set` at its index.  The JS `Map` is an association
list with at most one binding per key (`mapInsert` replaces in place,
`mapDelete` removes the binding), mirroring `Map.get`/`Map.set`/`Map.delete`.
`Date.now()` is an explicit `now : Nat` argument threaded to each operation
that reads the clock.
-/

/-- Embedding of class `CobaltEntry` (fields `key`, `value`, `next`, `prev`,
`date`, `maxAge`); `next`/`prev` are arena indices. -/
structure CobaltEntry where
  key : String
  value : String
  next : Option Nat
  prev : Option Nat
  date : Nat
  maxAge : Nat
deriving DecidableEq, Repr

instance : Inhabited CobaltEntry :=
  ⟨⟨"", "", none, none, 0, 0⟩⟩

/-- Dereference an arena index (reading a node through a JS reference). -/
def heapGet : List CobaltEntry → Nat → CobaltEntry
  | [], _ => default
  | e :: _, 0 => e
  | _ :: rest, i + 1 => heapGet rest i

/-- Assign the `next` field of the node at index `i` (JS `node.next = nx`). -/
def heapSetNext : List CobaltEntry → Nat → Option Nat → List CobaltEntry
  | [], _, _ => []
  | e :: rest, 0, nx => { e with next := nx } :: rest
  | e :: rest, i + 1, nx => e :: heapSetNext rest i nx

/-- Assign the `prev` field of the node at index `i` (JS `node.prev = pv`). -/
def heapSetPrev : List CobaltEntry → Nat → Option Nat → List CobaltEntry
  | [], _, _ => []
  | e :: rest, 0, pv => { e with prev := pv } :: rest
  | e :: rest, i + 1, pv => e :: heapSetPrev rest i pv

/-- JS `Map.get`: the value bound to `key`, if any. -/
def mapLookup : List (String × Nat) → String → Option Nat
  | [], _ => none
  | (k, v) :: rest, key => if k = key then some v else mapLookup rest key

/-- JS `Map.set`: replace the binding of `key` in place, or append it. -/
def mapInsert : List (String × Nat) → String → Nat → List (String × Nat)
  | [], key, v => [(key, v)]
  | (k, w) :: rest, key, v =>
      if k = key then (k, v) :: rest else (k, w) :: mapInsert rest key v

/-- JS `Map.delete`: drop the binding of `key`.  A JS `Map` holds at most one
binding per key, so dropping every pair with that key removes exactly that
binding. -/
def mapDelete : List (String × Nat) → String → List (String × Nat)
  | [], _ => []
  | (k, w) :: rest, key =>
      if k = key then mapDelete rest key else (k, w) :: mapDelete rest key

/-- Embedding of the getter `CobaltEntry.stale` at an explicit clock reading:
`if (!this.maxAge) return false; return Date.now() - this.date > this.maxAge`. -/
def CobaltEntry.staleAt (e : CobaltEntry) (now : Nat) : Bool :=
  if e.maxAge = 0 then false
  else decide ((now : Int) - (e.date : Int) > (e.maxAge : Int))

/-- Embedding of class `Cobalt`: the index (`cache`), the arena of nodes, the
list endpoints and the staleness configuration. -/
structure Cobalt where
  capacity : Int
  cache : List (String × Nat)
  nodes : List CobaltEntry
  head : Option Nat
  tail : Option Nat
  allowStale : Bool
  maxAge : Nat
deriving DecidableEq, Repr

/-- Embedding of `new Cobalt(options)`.  JS `||` defaulting is literal:
`options?.capacity || 1000` turns a missing or zero capacity into 1000 (zero
is falsy) and keeps any other number, negative included;
`options?.allowStale || false` keeps the given boolean; `maxAge` is taken
from the options only when `allowStale` is true. -/
def cobaltNew (capacityOpt : Option Int) (allowStaleOpt : Option Bool)
    (maxAgeOpt : Option Nat) : Cobalt :=
  let capacity : Int :=
    match capacityOpt with
    | some c => if c = 0 then 1000 else c
    | none => 1000
  let allowStale :=
    match allowStaleOpt with
    | some b => b
    | none => false
  let maxAge := if allowStale then maxAgeOpt.getD 0 else 0
  ⟨capacity, [], [], none, none, allowStale, maxAge⟩

/-- Embedding of the getter `Cobalt.size`: the size of the index map. -/
def Cobalt.size (c : Cobalt) : Nat :=
  c.cache.length

/-- Embedding of `Cobalt.remove(key)`: look the node up in the index, splice
its neighbours (or move `head`/`tail` when it is an endpoint), then delete the
key from the index.  A missing key is a no-op. -/
def Cobalt.remove (c : Cobalt) (key : String) : Cobalt :=
  match mapLookup c.cache key with
  | none => c
  | some i =>
    let n := heapGet c.nodes i
    let c1 :=
      match n.prev with
      | some p => { c with nodes := heapSetNext c.nodes p n.next }
      | none => { c with head := n.next }
    let c2 :=
      match n.next with
      | some q => { c1 with nodes := heapSetPrev c1.nodes q n.prev }
      | none => { c1 with tail := n.prev }
    { c2 with cache := mapDelete c2.cache key }

/-- Embedding of the guard
`if (this.size >= this.capacity && this.tail) this.remove(this.tail.key)`
at the top of `Cobalt.set`. -/
def Cobalt.evictIfFull (c : Cobalt) : Cobalt :=
  match c.tail with
  | some t => if (c.size : Int) ≥ c.capacity then c.remove (heapGet c.nodes t).key else c
  | none => c

/-- Embedding of `Cobalt.set(key, value)`: evict if at capacity, then link a
fresh node (carrying the cache-wide `maxAge` and the current clock reading as
`date`) as the new head — becoming both endpoints when the list was empty —
and overwrite the index binding.  Note the source never unlinks a previous
node of `key` from the list; only the index binding is overwritten. -/
def Cobalt.set (c : Cobalt) (key value : String) (now : Nat) : Cobalt :=
  let c0 := c.evictIfFull
  match c0.head with
  | none =>
    let i := c0.nodes.length
    let e : CobaltEntry := ⟨key, value, none, none, now, c0.maxAge⟩
    { c0 with nodes := c0.nodes ++ [e], head := some i, tail := some i,
              cache := mapInsert c0.cache key i }
  | some h =>
    let i := c0.nodes.length
    let e : CobaltEntry := ⟨key, value, some h, none, now, c0.maxAge⟩
    { c0 with nodes := heapSetPrev (c0.nodes ++ [e]) h (some i), head := some i,
              cache := mapInsert c0.cache key i }

/-- Embedding of `Cobalt.get(key)`: returns the value (or `none`) together
with the resulting cache.  A hit is removed, then re-inserted through
`Cobalt.set` when fresh; a stale hit is removed and `none` is returned. -/
def Cobalt.get (c : Cobalt) (key : String) (now : Nat) : Option String × Cobalt :=
  match mapLookup c.cache key with
  | none => (none, c)
  | some i =>
    let entry := heapGet c.nodes i
    let c1 := c.remove key
    if entry.staleAt now then (none, c1)
    else (some entry.value, c1.set key entry.value now)

/-- Embedding of `Cobalt.has(key)`: membership in the index only. -/
def Cobalt.has (c : Cobalt) (key : String) : Bool :=
  (mapLookup c.cache key).isSome

/-- Embedding of `Cobalt.pop()`: read the tail node, compute its staleness at
the current clock, remove `tail.key`, and return the value unless stale. -/
def Cobalt.pop (c : Cobalt) (now : Nat) : Option String × Cobalt :=
  match c.tail with
  | none => (none, c)
  | some t =>
    let e := heapGet c.nodes t
    let st := e.staleAt now
    let c1 := c.remove e.key
    (if st then none else some e.value, c1)

/-- Embedding of `Cobalt.reset()`: fresh empty index, null endpoints.  The
old nodes become garbage; the arena keeps them, unreachable. -/
def Cobalt.reset (c : Cobalt) : Cobalt :=
  { c with cache := [], head := none, tail := none }

/-- The chain of nodes reached from `start` by following `next`, as the JS
`forEach` loop walks it.  The fuel bounds the walk; `nodes.length + 1` steps
are enough to exhaust any acyclic chain through the arena. -/
def walkFrom (nodes : List CobaltEntry) : Nat → Option Nat → List CobaltEntry
  | 0, _ => []
  | _ + 1, none => []
  | fuel + 1, some i => heapGet nodes i :: walkFrom nodes fuel (heapGet nodes i).next

/-- The list of live nodes in recency order (head to tail), as `forEach`
visits them. -/
def Cobalt.entriesList (c : Cobalt) : List CobaltEntry :=
  walkFrom c.nodes (c.nodes.length + 1) c.head

/-- Embedding of `Cobalt.keys()`: the keys of the nodes `forEach` visits. -/
def Cobalt.keys (c : Cobalt) : List String :=
  c.entriesList.map CobaltEntry.key

/-- Embedding of `Cobalt.values()`: the values of the nodes `forEach`
visits. -/
def Cobalt.values (c : Cobalt) : List String :=
  c.entriesList.map CobaltEntry.value

/-- A public operation of the cache, with the clock reading passed to the
operations that consult `Date.now()`. -/
inductive Op where
  | opSet (key value : String) (now : Nat)
  | opGet (key : String) (now : Nat)
  | opHas (key : String)
  | opRemove (key : String)
  | opPop (now : Nat)
  | opReset
deriving DecidableEq, Repr

/-- The state after one public operation (query results discarded). -/
def Cobalt.step (c : Cobalt) : Op → Cobalt
  | .opSet k v t => c.set k v t
  | .opGet k t => (c.get k t).2
  | .opHas _ => c
  | .opRemove k => c.remove k
  | .opPop t => (c.pop t).2
  | .opReset => c.reset

/-- The state after a finite sequence of public operations. -/
def Cobalt.run (c : Cobalt) (ops : List Op) : Cobalt :=
  ops.foldl Cobalt.step c

/-! Helper lemmas about the arena and the index map. -/

theorem heapGet_append_self (l : List CobaltEntry) (e : CobaltEntry) :
    heapGet (l ++ [e]) l.length = e := by
  induction l with
  | nil => rfl
  | cons a rest ih => simpa [heapGet] using ih

theorem heapSetNext_length (l : List CobaltEntry) (i : Nat) (nx : Option Nat) :
    (heapSetNext l i nx).length = l.length := by
  induction l generalizing i with
  | nil => rfl
  | cons a rest ih => cases i <;> simp [heapSetNext, ih]

theorem heapSetPrev_length (l : List CobaltEntry) (i : Nat) (pv : Option Nat) :
    (heapSetPrev l i pv).length = l.length := by
  induction l generalizing i with
  | nil => rfl
  | cons a rest ih => cases i <;> simp [heapSetPrev, ih]

theorem heapGet_heapSetPrev_fields (l : List CobaltEntry) (j : Nat) (pv : Option Nat)
    (i : Nat) :
    (heapGet (heapSetPrev l j pv) i).key = (heapGet l i).key ∧
    (heapGet (heapSetPrev l j pv) i).value = (heapGet l i).value ∧
    (heapGet (heapSetPrev l j pv) i).date = (heapGet l i).date ∧
    (heapGet (heapSetPrev l j pv) i).maxAge = (heapGet l i).maxAge ∧
    (heapGet (heapSetPrev l j pv) i).next = (heapGet l i).next := by
  induction l generalizing i j with
  | nil => exact ⟨rfl, rfl, rfl, rfl, rfl⟩
  | cons a rest ih =>
    cases j with
    | zero => cases i <;> simp [heapSetPrev, heapGet]
    | succ j => cases i <;> simp [heapSetPrev, heapGet, ih]

theorem heapGet_heapSetNext_fields (l : List CobaltEntry) (j : Nat) (nx : Option Nat)
    (i : Nat) :
    (heapGet (heapSetNext l j nx) i).key = (heapGet l i).key ∧
    (heapGet (heapSetNext l j nx) i).value = (heapGet l i).value ∧
    (heapGet (heapSetNext l j nx) i).date = (heapGet l i).date ∧
    (heapGet (heapSetNext l j nx) i).maxAge = (heapGet l i).maxAge ∧
    (heapGet (heapSetNext l j nx) i).prev = (heapGet l i).prev := by
  induction l generalizing i j with
  | nil => exact ⟨rfl, rfl, rfl, rfl, rfl⟩
  | cons a rest ih =>
    cases j with
    | zero => cases i <;> simp [heapSetNext, heapGet]
    | succ j => cases i <;> simp [heapSetNext, heapGet, ih]

theorem mapLookup_mapInsert_self (m : List (String × Nat)) (k : String) (v : Nat) :
    mapLookup (mapInsert m k v) k = some v := by
  induction m with
  | nil => simp [mapInsert, mapLookup]
  | cons a rest ih =>
    by_cases h : a.1 = k
    · simp [mapInsert, mapLookup, h]
    · simp [mapInsert, mapLookup, h, ih]

theorem mapLookup_mapDelete_self (m : List (String × Nat)) (k : String) :
    mapLookup (mapDelete m k) k = none := by
  induction m with
  | nil => rfl
  | cons a rest ih =>
    by_cases h : a.1 = k
    · simp [mapDelete, h, ih]
    · simp [mapDelete, mapLookup, h, ih]

theorem mapDelete_eq_of_lookup_none (m : List (String × Nat)) (k : String)
    (h : mapLookup m k = none) : mapDelete m k = m := by
  induction m with
  | nil => rfl
  | cons a rest ih =>
    by_cases hk : a.1 = k
    · simp [mapLookup, hk] at h
    · simp only [mapLookup, hk, if_false] at h
      simp [mapDelete, hk, ih h]

/-! Structural facts about `Cobalt.remove`, `Cobalt.evictIfFull` and
`Cobalt.set`: which fields they keep, the length of the arena, and the shape
of the node each `set` links at the head. -/

theorem Cobalt.remove_spec (c : Cobalt) (k : String) :
    (c.remove k).nodes.length = c.nodes.length ∧
    (c.remove k).maxAge = c.maxAge ∧
    (c.remove k).capacity = c.capacity ∧
    (c.remove k).allowStale = c.allowStale ∧
    (c.remove k).cache = mapDelete c.cache k := by
  unfold Cobalt.remove
  cases h : mapLookup c.cache k with
  | none =>
    simp [mapDelete_eq_of_lookup_none c.cache k h]
  | some i =>
    cases hp : (heapGet c.nodes i).prev <;> cases hn : (heapGet c.nodes i).next <;>
      simp [hp, hn, heapSetNext_length, heapSetPrev_length]

theorem Cobalt.evictIfFull_spec (c : Cobalt) :
    c.evictIfFull.nodes.length = c.nodes.length ∧
    c.evictIfFull.maxAge = c.maxAge ∧
    c.evictIfFull.capacity = c.capacity ∧
    c.evictIfFull.allowStale = c.allowStale := by
  unfold Cobalt.evictIfFull
  cases c.tail with
  | none => exact ⟨rfl, rfl, rfl, rfl⟩
  | some t =>
    by_cases h : (c.size : Int) ≥ c.capacity
    · have hr := c.remove_spec (heapGet c.nodes t).key
      simp [h, hr.1, hr.2.1, hr.2.2.1, hr.2.2.2.1]
    · simp [h]

theorem Cobalt.set_spec (c : Cobalt) (k v : String) (now : Nat) :
    (c.set k v now).head = some c.nodes.length ∧
    (heapGet (c.set k v now).nodes c.nodes.length).key = k ∧
    (heapGet (c.set k v now).nodes c.nodes.length).value = v ∧
    (heapGet (c.set k v now).nodes c.nodes.length).date = now ∧
    (heapGet (c.set k v now).nodes c.nodes.length).maxAge = c.maxAge ∧
    (c.set k v now).maxAge = c.maxAge ∧
    (c.set k v now).nodes.length = c.nodes.length + 1 ∧
    mapLookup (c.set k v now).cache k = some c.nodes.length := by
  obtain ⟨hlen, hma, -, -⟩ := c.evictIfFull_spec
  rw [← hlen, ← hma]
  cases hh : c.evictIfFull.head with
  | none =>
    simp only [Cobalt.set, hh]
    simp [heapGet_append_self, mapLookup_mapInsert_self]
  | some h0 =>
    simp only [Cobalt.set, hh]
    have hp := heapGet_heapSetPrev_fields
      (c.evictIfFull.nodes ++ [⟨k, v, some h0, none, now, c.evictIfFull.maxAge⟩])
      h0 (some c.evictIfFull.nodes.length) c.evictIfFull.nodes.length
    rw [heapGet_append_self] at hp
    simp [hp.1, hp.2.1, hp.2.2.1, hp.2.2.2.1, heapSetPrev_length,
      mapLookup_mapInsert_self]

theorem Cobalt.remove_lookup_self (c : Cobalt) (k : String) :
    mapLookup (c.remove k).cache k = none := by
  rw [(c.remove_spec k).2.2.2.2]
  exact mapLookup_mapDelete_self c.cache k

theorem Cobalt.get_eq_of_lookup_none (c : Cobalt) (k : String) (now : Nat)
    (h : mapLookup c.cache k = none) : c.get k now = (none, c) := by
  simp [Cobalt.get, h]

theorem Cobalt.get_eq_of_stale (c : Cobalt) (k : String) (now i : Nat)
    (h1 : mapLookup c.cache k = some i)
    (h2 : (heapGet c.nodes i).staleAt now = true) :
    c.get k now = (none, c.remove k) := by
  simp [Cobalt.get, h1, h2]

theorem Cobalt.get_eq_of_fresh (c : Cobalt) (k : String) (now i : Nat)
    (h1 : mapLookup c.cache k = some i)
    (h2 : (heapGet c.nodes i).staleAt now = false) :
    c.get k now =
      (some (heapGet c.nodes i).value,
        (c.remove k).set k (heapGet c.nodes i).value now) := by
  simp [Cobalt.get, h1, h2]

theorem CobaltEntry.staleAt_eq_false (e : CobaltEntry) (t : Nat)
    (h : e.maxAge = 0 ∨ ((t : Int) - (e.date : Int) ≤ (e.maxAge : Int))) :
    e.staleAt t = false := by
  rcases h with h | h
  · simp [CobaltEntry.staleAt, h]
  · by_cases h0 : e.maxAge = 0
    · simp [CobaltEntry.staleAt, h0]
    · simp only [CobaltEntry.staleAt, h0, if_false, decide_eq_false_iff_not, not_lt]
      exact h

theorem Cobalt.keys_head_of_head (c : Cobalt) (h0 : Nat) (h : c.head = some h0) :
    c.keys.head? = some (heapGet c.nodes h0).key := by
  simp [Cobalt.keys, Cobalt.entriesList, walkFrom, h]

/-! Invariant for caches configured without staleness: the cache-wide
`maxAge` is 0 and every node in the arena carries `maxAge = 0`. -/

/-- A cache in which no time-to-live is ever attached: the configured
`maxAge` is 0 and so is the `maxAge` of every node in the arena. -/
def NoTTL (c : Cobalt) : Prop :=
  c.maxAge = 0 ∧ ∀ e ∈ c.nodes, e.maxAge = 0

theorem heapSetNext_maxAge_mem (l : List CobaltEntry) (j : Nat) (nx : Option Nat)
    (h : ∀ e ∈ l, e.maxAge = 0) : ∀ e ∈ heapSetNext l j nx, e.maxAge = 0 := by
  induction l generalizing j with
  | nil => simp [heapSetNext]
  | cons a rest ih =>
    cases j with
    | zero =>
      intro e he
      rcases List.mem_cons.mp he with rfl | he
      · exact h a (List.mem_cons_self a rest)
      · exact h e (List.mem_cons_of_mem a he)
    | succ j =>
      intro e he
      rcases List.mem_cons.mp he with rfl | he
      · exact h e (List.mem_cons_self e rest)
      · exact ih j (fun x hx => h x (List.mem_cons_of_mem a hx)) e he

theorem heapSetPrev_maxAge_mem (l : List CobaltEntry) (j : Nat) (pv : Option Nat)
    (h : ∀ e ∈ l, e.maxAge = 0) : ∀ e ∈ heapSetPrev l j pv, e.maxAge = 0 := by
  induction l generalizing j with
  | nil => simp [heapSetPrev]
  | cons a rest ih =>
    cases j with
    | zero =>
      intro e he
      rcases List.mem_cons.mp he with rfl | he
      · exact h a (List.mem_cons_self a rest)
      · exact h e (List.mem_cons_of_mem a he)
    | succ j =>
      intro e he
      rcases List.mem_cons.mp he with rfl | he
      · exact h e (List.mem_cons_self e rest)
      · exact ih j (fun x hx => h x (List.mem_cons_of_mem a hx)) e he

theorem heapGet_maxAge_zero (l : List CobaltEntry) (i : Nat)
    (h : ∀ e ∈ l, e.maxAge = 0) : (heapGet l i).maxAge = 0 := by
  induction l generalizing i with
  | nil => rfl
  | cons a rest ih =>
    cases i with
    | zero => exact h a (List.mem_cons_self a rest)
    | succ i => exact ih i (fun x hx => h x (List.mem_cons_of_mem a hx))

theorem remove_nodes_maxAge (c : Cobalt) (k : String)
    (h : ∀ e ∈ c.nodes, e.maxAge = 0) : ∀ e ∈ (c.remove k).nodes, e.maxAge = 0 := by
  unfold Cobalt.remove
  cases hl : mapLookup c.cache k with
  | none => exact h
  | some i =>
    cases hp : (heapGet c.nodes i).prev <;> cases hn : (heapGet c.nodes i).next <;>
      simp only [hp, hn] <;>
      first
        | exact h
        | exact heapSetPrev_maxAge_mem _ _ _ h
        | exact heapSetNext_maxAge_mem _ _ _ h
        | exact heapSetPrev_maxAge_mem _ _ _ (heapSetNext_maxAge_mem _ _ _ h)

theorem noTTL_remove (c : Cobalt) (k : String) (h : NoTTL c) : NoTTL (c.remove k) :=
  ⟨by rw [(c.remove_spec k).2.1]; exact h.1, remove_nodes_maxAge c k h.2⟩

theorem noTTL_evictIfFull (c : Cobalt) (h : NoTTL c) : NoTTL c.evictIfFull := by
  unfold Cobalt.evictIfFull
  cases c.tail with
  | none => exact h
  | some t =>
    by_cases hsz : (c.size : Int) ≥ c.capacity
    · simp only [hsz, if_true]
      exact noTTL_remove _ _ h
    · simp only [hsz, if_false]
      exact h

theorem noTTL_set (c : Cobalt) (k v : String) (t : Nat) (h : NoTTL c) :
    NoTTL (c.set k v t) := by
  have hev := noTTL_evictIfFull c h
  constructor
  · rw [(c.set_spec k v t).2.2.2.2.2.1]
    exact h.1
  · cases hh : c.evictIfFull.head with
    | none =>
      simp only [Cobalt.set, hh]
      intro e he
      rcases List.mem_append.mp he with he | he
      · exact hev.2 e he
      · rw [List.mem_singleton.mp he]
        exact hev.1
    | some h0 =>
      simp only [Cobalt.set, hh]
      refine heapSetPrev_maxAge_mem _ _ _ ?_
      intro e he
      rcases List.mem_append.mp he with he | he
      · exact hev.2 e he
      · rw [List.mem_singleton.mp he]
        exact hev.1

theorem noTTL_get (c : Cobalt) (k : String) (t : Nat) (h : NoTTL c) :
    NoTTL (c.get k t).2 := by
  cases hl : mapLookup c.cache k with
  | none => rw [Cobalt.get_eq_of_lookup_none c k t hl]; exact h
  | some i =>
    cases hst : (heapGet c.nodes i).staleAt t with
    | false =>
      rw [Cobalt.get_eq_of_fresh c k t i hl hst]
      exact noTTL_set _ _ _ _ (noTTL_remove _ _ h)
    | true =>
      rw [Cobalt.get_eq_of_stale c k t i hl hst]
      exact noTTL_remove _ _ h

theorem noTTL_pop (c : Cobalt) (t : Nat) (h : NoTTL c) : NoTTL (c.pop t).2 := by
  cases ht : c.tail with
  | none => simp only [Cobalt.pop, ht]; exact h
  | some tt =>
    simp only [Cobalt.pop, ht]
    exact noTTL_remove _ _ h

theorem noTTL_step (c : Cobalt) (op : Op) (h : NoTTL c) : NoTTL (c.step op) := by
  cases op with
  | opSet k v t => exact noTTL_set c k v t h
  | opGet k t => exact noTTL_get c k t h
  | opHas k => exact h
  | opRemove k => exact noTTL_remove c k h
  | opPop t => exact noTTL_pop c t h
  | opReset => exact h

theorem noTTL_run (c : Cobalt) (ops : List Op) (h : NoTTL c) : NoTTL (c.run ops) := by
  induction ops generalizing c with
  | nil => exact h
  | cons op rest ih => exact ih (c.step op) (noTTL_step c op h)

theorem noTTL_new (cap : Option Int) (allowStaleOpt : Option Bool) (m : Option Nat)
    (h : allowStaleOpt = none ∨ allowStaleOpt = some false) :
    NoTTL (cobaltNew cap allowStaleOpt m) := by
  rcases h with rfl | rfl <;> exact ⟨rfl, by simp [cobaltNew]⟩

theorem get_value_of_noTTL (c : Cobalt) (k : String) (t i : Nat) (h : NoTTL c)
    (hl : mapLookup c.cache k = some i) :
    (c.get k t).1 = some (heapGet c.nodes i).value := by
  have hst : (heapGet c.nodes i).staleAt t = false := by
    have hz := heapGet_maxAge_zero c.nodes i h.2
    simp [CobaltEntry.staleAt, hz]
  rw [Cobalt.get_eq_of_fresh c k t i hl hst]

theorem pop_value_of_noTTL (c : Cobalt) (t tt : Nat) (h : NoTTL c)
    (ht : c.tail = some tt) :
    (c.pop t).1 = some (heapGet c.nodes tt).value := by
  have hst : (heapGet c.nodes tt).staleAt t = false := by
    have hz := heapGet_maxAge_zero c.nodes tt h.2
    simp [CobaltEntry.staleAt, hz]
  simp only [Cobalt.pop, ht, hst]
  simp

/-! Claim theorems. -/

/-- C1: the claim says `set` on a live key unlinks the existing node before
linking the new one, so that after `set("a","1"); set("a","2")` the cache has
`size() == 1`, `get("a") == "2"` and `keys()` of length 1.  Evaluating the
code at that input: `size()` is 1 and `get("a")` returns `"2"`, but `keys()`
is `["a", "a"]` — the old node for `"a"` is still linked in the recency list,
because `set` only overwrites the index binding and never unlinks the
previous node. -/
theorem C1_set_overwrite_leaves_orphan :
    (((cobaltNew (some 2) none none).set "a" "1" 0).set "a" "2" 0).size = 1 ∧
    ((((cobaltNew (some 2) none none).set "a" "1" 0).set "a" "2" 0).get "a" 0).1 =
      some "2" ∧
    (((cobaltNew (some 2) none none).set "a" "1" 0).set "a" "2" 0).keys =
      ["a", "a"] := by
  decide

/-- C2: the claim says that after any sequence of public operations every key
appears at most once in `keys()`.  Evaluating the code on the sequence
`set("a","1"); set("a","2")` from an empty cache: `keys()` is `["a", "a"]`,
so `"a"` appears twice while the index has size 1 — the index and the list do
not reference the same set of nodes. -/
theorem C2_duplicate_key_in_enumeration :
    ((cobaltNew (some 2) none none).run
        [Op.opSet "a" "1" 0, Op.opSet "a" "2" 0]).keys = ["a", "a"] ∧
    (((cobaltNew (some 2) none none).run
        [Op.opSet "a" "1" 0, Op.opSet "a" "2" 0]).keys).count "a" = 2 ∧
    ((cobaltNew (some 2) none none).run
        [Op.opSet "a" "1" 0, Op.opSet "a" "2" 0]).size = 1 := by
  decide

/-- C5: the claim says that setting an already-present key in a full cache
evicts no other key.  Evaluating the code: on a capacity-2 cache holding
`"a"` (tail) and `"b"` (head), `set("b","2")` — with `"b"` already present —
evicts `"a"`: the guard fires on `index.size >= capacity` without first
removing the old binding of `"b"`, so the tail `"a"` is removed. -/
theorem C5_eviction_despite_present_key :
    ((cobaltNew (some 2) none none).run
        [Op.opSet "a" "1" 0, Op.opSet "b" "1" 0]).has "a" = true ∧
    ((cobaltNew (some 2) none none).run
        [Op.opSet "a" "1" 0, Op.opSet "b" "1" 0]).has "b" = true ∧
    (((cobaltNew (some 2) none none).run
        [Op.opSet "a" "1" 0, Op.opSet "b" "1" 0]).set "b" "2" 0).has "a" = false := by
  decide

/-- C7: the claim says `size() <= capacity` after every `set`.  Evaluating
the code on the pure-`set` sequence `set("b","1"); set("b","2"); set("x","1");
set("y","1"); set("z","1")` with capacity 2: the duplicate node for `"b"`
left at the tail keeps the key `"b"` out of the index, the eviction step
`remove(tail.key)` becomes a no-op, and the fifth `set` drives the index size
to 3, exceeding the capacity 2. -/
theorem C7_size_exceeds_capacity :
    ((cobaltNew (some 2) none none).run
        [Op.opSet "b" "1" 0, Op.opSet "b" "2" 0, Op.opSet "x" "1" 0,
         Op.opSet "y" "1" 0, Op.opSet "z" "1" 0]).size = 3 ∧
    ((cobaltNew (some 2) none none).run
        [Op.opSet "b" "1" 0, Op.opSet "b" "2" 0, Op.opSet "x" "1" 0,
         Op.opSet "y" "1" 0, Op.opSet "z" "1" 0]).capacity = 2 ∧
    ¬ ((((cobaltNew (some 2) none none).run
        [Op.opSet "b" "1" 0, Op.opSet "b" "2" 0, Op.opSet "x" "1" 0,
         Op.opSet "y" "1" 0, Op.opSet "z" "1" 0]).size : Int) ≤
       ((cobaltNew (some 2) none none).run
        [Op.opSet "b" "1" 0, Op.opSet "b" "2" 0, Op.opSet "x" "1" 0,
         Op.opSet "y" "1" 0, Op.opSet "z" "1" 0]).capacity) := by
  decide

/-- C8: the claim says `pop` on a non-empty cache removes the current tail
entry from both the list and the index and returns that entry's value.
Evaluating the code on the reachable cache produced by `set("b","1");
set("b","2")` (capacity 2): `pop` returns `"1"` (the tail's value), but
`remove(tail.key)` removes the node the index holds for `"b"` — the head —
so afterwards the index is empty (`size() == 0`) while the tail node is
still linked: `keys()` is `["b"]`, not `[]`. -/
theorem C8_pop_leaves_tail_linked :
    (((cobaltNew (some 2) none none).run
        [Op.opSet "b" "1" 0, Op.opSet "b" "2" 0]).pop 0).1 = some "1" ∧
    (((cobaltNew (some 2) none none).run
        [Op.opSet "b" "1" 0, Op.opSet "b" "2" 0]).pop 0).2.size = 0 ∧
    (((cobaltNew (some 2) none none).run
        [Op.opSet "b" "1" 0, Op.opSet "b" "2" 0]).pop 0).2.keys = ["b"] := by
  decide

/-- C3 counterexample: on a cache with `allowStale` and `maxAge = 10`,
`set("a","1")` at time 0 creates a node with `date = 0`; `get("a")` at time 5
finds it fresh and re-inserts it — but the re-inserted head node has
`date = 5`, not the original 0, and a `get` at time 12 (when the original
node would be stale, `12 - 0 > 10`) still returns the value: promotion by
`get` does reset the staleness clock, contrary to the claim. -/
theorem C3_counterexample_clock_is_reset :
    ((((cobaltNew (some 2) (some true) (some 10)).set "a" "1" 0).get "a" 5).1 =
      some "1") ∧
    (heapGet ((cobaltNew (some 2) (some true) (some 10)).set "a" "1" 0).nodes 0).date
      = 0 ∧
    ((((cobaltNew (some 2) (some true) (some 10)).set "a" "1" 0).get "a" 5).2.head =
      some 1) ∧
    (heapGet
      ((((cobaltNew (some 2) (some true) (some 10)).set "a" "1" 0).get "a" 5).2).nodes
      1).date = 5 ∧
    ¬ ((heapGet
      ((((cobaltNew (some 2) (some true) (some 10)).set "a" "1" 0).get "a" 5).2).nodes
      1).date =
      (heapGet ((cobaltNew (some 2) (some true) (some 10)).set "a" "1" 0).nodes
      0).date) ∧
    ((heapGet ((cobaltNew (some 2) (some true) (some 10)).set "a" "1" 0).nodes
      0).staleAt 12 = true) ∧
    (((((cobaltNew (some 2) (some true) (some 10)).set "a" "1" 0).get "a" 5).2.get
      "a" 12).1 = some "1") := by
  decide

/-- C3 amended: for a present, fresh key `k`, `get` re-inserts a node for `k`
as the new head and returns its value, and the new head keeps the value and
the TTL configured on the cache — but its creation timestamp is the time of
the `get`, not the original one: promotion resets the staleness clock. -/
theorem C3_amended_promotion_resets_clock (c : Cobalt) (k : String) (now i : Nat)
    (h1 : mapLookup c.cache k = some i)
    (h2 : (heapGet c.nodes i).staleAt now = false) :
    (c.get k now).1 = some (heapGet c.nodes i).value ∧
    (c.get k now).2.head = some c.nodes.length ∧
    (heapGet (c.get k now).2.nodes c.nodes.length).key = k ∧
    (heapGet (c.get k now).2.nodes c.nodes.length).value =
      (heapGet c.nodes i).value ∧
    (heapGet (c.get k now).2.nodes c.nodes.length).date = now ∧
    (heapGet (c.get k now).2.nodes c.nodes.length).maxAge = c.maxAge := by
  have hg := Cobalt.get_eq_of_fresh c k now i h1 h2
  have hr := c.remove_spec k
  have hs := (c.remove k).set_spec k (heapGet c.nodes i).value now
  rw [hr.1, hr.2.1] at hs
  exact ⟨by rw [hg], by rw [hg]; exact hs.1, by rw [hg]; exact hs.2.1,
    by rw [hg]; exact hs.2.2.1, by rw [hg]; exact hs.2.2.2.1,
    by rw [hg]; exact hs.2.2.2.2.1⟩

/-- C3 witness: instantiation of the amended claim at a concrete fresh hit. -/
theorem C3_amended_witness :
    ((((cobaltNew (some 2) (some true) (some 10)).set "a" "1" 0).get "a" 5).1 =
      some "1") ∧
    (heapGet
      ((((cobaltNew (some 2) (some true) (some 10)).set "a" "1" 0).get "a" 5).2).nodes
      1).date = 5 := by
  have h := C3_amended_promotion_resets_clock
    ((cobaltNew (some 2) (some true) (some 10)).set "a" "1" 0) "a" 5 0
    (by decide) (by decide)
  exact ⟨h.1, h.2.2.2.2.1⟩

/-- C4 counterexample: constructing with capacity 0 (non-positive) is not
rejected — the constructor silently coerces it to the default 1000, and a
negative capacity is stored unchanged; no error is ever reported. -/
theorem C4_counterexample_coerced_to_default :
    (cobaltNew (some 0) none none).capacity = 1000 ∧
    (cobaltNew (some (-5)) none none).capacity = -5 := by
  decide

/-- C4 amended: construction never rejects a non-positive capacity; a zero
capacity is silently coerced to the default 1000 (JS falsiness of 0) and a
negative capacity is kept as given. -/
theorem C4_amended_no_rejection (z : Int) (_hz : z ≤ 0) (a : Option Bool)
    (m : Option Nat) :
    (cobaltNew (some z) a m).capacity = if z = 0 then 1000 else z := by
  by_cases h0 : z = 0 <;> simp [cobaltNew, h0]

/-- C4 witness: the amended claim at capacity -3. -/
theorem C4_amended_witness :
    ((-3 : Int) ≤ 0) ∧ (cobaltNew (some (-3)) none none).capacity = -3 := by
  refine ⟨by decide, ?_⟩
  have h := C4_amended_no_rejection (-3) (by decide) none none
  simpa using h

/-- C6: if key `k` is indexed and its node is stale at the current clock,
`get` returns absent and leaves the cache in the `remove k` state: the node
is unlinked and the key deleted from the index, `has k` is false afterwards,
and every later `get` of `k` returns absent without changing the state — the
stale entry is never resurrected. -/
theorem C6_stale_get_permanent (c : Cobalt) (k : String) (now i : Nat)
    (h1 : mapLookup c.cache k = some i)
    (h2 : (heapGet c.nodes i).staleAt now = true) :
    (c.get k now).1 = none ∧
    (c.get k now).2 = c.remove k ∧
    (c.remove k).has k = false ∧
    ∀ t2, ((c.remove k).get k t2).1 = none ∧
      ((c.remove k).get k t2).2 = c.remove k := by
  have hg := Cobalt.get_eq_of_stale c k now i h1 h2
  have hl2 := Cobalt.remove_lookup_self c k
  refine ⟨by rw [hg], by rw [hg], by simp [Cobalt.has, hl2], ?_⟩
  intro t2
  have hn := Cobalt.get_eq_of_lookup_none (c.remove k) k t2 hl2
  exact ⟨by rw [hn], by rw [hn]⟩

/-- C6 witness: a concrete stale hit (maxAge 1, set at time 0, read at
time 5). -/
theorem C6_witness :
    ((((cobaltNew (some 2) (some true) (some 1)).set "a" "1" 0).get "a" 5).1 =
      none) ∧
    ((((cobaltNew (some 2) (some true) (some 1)).set "a" "1" 0).remove "a").has
      "a" = false) := by
  have h := C6_stale_get_permanent
    ((cobaltNew (some 2) (some true) (some 1)).set "a" "1" 0) "a" 5 0
    (by decide) (by decide)
  exact ⟨h.1, h.2.2.1⟩

/-- C9: `set(k, v)` makes `k` the first key of the enumeration order, an
immediate `get(k)` (at any time not past the TTL) returns `v` and leaves `k`
at the head, and more generally every successful `get(k)` leaves `k` as the
first key of the enumeration order. -/
theorem C9_roundtrip_and_recency (c : Cobalt) (k v : String) (t t2 : Nat)
    (h : c.maxAge = 0 ∨ ((t2 : Int) - (t : Int) ≤ (c.maxAge : Int))) :
    ((c.set k v t).keys).head? = some k ∧
    ((c.set k v t).get k t2).1 = some v ∧
    (((c.set k v t).get k t2).2.keys).head? = some k ∧
    ∀ (d : Cobalt) (r : String) (t3 : Nat), (d.get k t3).1 = some r →
      ((d.get k t3).2.keys).head? = some k := by
  have hs := c.set_spec k v t
  have hl : mapLookup (c.set k v t).cache k = some c.nodes.length :=
    hs.2.2.2.2.2.2.2
  have hfresh : (heapGet (c.set k v t).nodes c.nodes.length).staleAt t2 = false := by
    apply CobaltEntry.staleAt_eq_false
    rcases h with h | h
    · left
      rw [hs.2.2.2.2.1]
      exact h
    · right
      rw [hs.2.2.2.1, hs.2.2.2.2.1]
      exact h
  have hg := Cobalt.get_eq_of_fresh (c.set k v t) k t2 c.nodes.length hl hfresh
  have hval : (heapGet (c.set k v t).nodes c.nodes.length).value = v := hs.2.2.1
  refine ⟨?_, ?_, ?_, ?_⟩
  · rw [Cobalt.keys_head_of_head _ _ hs.1, hs.2.1]
  · rw [hg, hval]
  · rw [hg]
    have hs2 := ((c.set k v t).remove k).set_spec k
      (heapGet (c.set k v t).nodes c.nodes.length).value t2
    rw [Cobalt.keys_head_of_head _ _ hs2.1, hs2.2.1]
  · intro d r t3 hd
    cases hld : mapLookup d.cache k with
    | none =>
      rw [Cobalt.get_eq_of_lookup_none d k t3 hld] at hd
      exact absurd hd (by simp)
    | some j =>
      cases hstd : (heapGet d.nodes j).staleAt t3 with
      | true =>
        rw [Cobalt.get_eq_of_stale d k t3 j hld hstd] at hd
        exact absurd hd (by simp)
      | false =>
        rw [Cobalt.get_eq_of_fresh d k t3 j hld hstd]
        have hs3 := ((d.remove k).set_spec k (heapGet d.nodes j).value t3)
        rw [Cobalt.keys_head_of_head _ _ hs3.1, hs3.2.1]

/-- C9 witness: set then get at the same instant on a fresh cache. -/
theorem C9_witness :
    (((cobaltNew (some 2) none none).set "a" "1" 0).get "a" 0).1 = some "1" :=
  (C9_roundtrip_and_recency (cobaltNew (some 2) none none) "a" "1" 0 0
    (Or.inl rfl)).2.1

/-- C10: when `allowStale` is absent or false, the configured `maxAge` is
ignored (the cache keeps `maxAge = 0`), every node ever created carries
`maxAge = 0` and so is never stale, `get` returns the stored value for every
indexed key, and `pop` returns the tail's value whenever a tail exists —
after any sequence of public operations from construction. -/
theorem C10_no_staleness_without_allowStale (cap : Option Int)
    (aOpt : Option Bool) (m : Option Nat) (ops : List Op)
    (hs : aOpt = none ∨ aOpt = some false) :
    ((cobaltNew cap aOpt m).run ops).maxAge = 0 ∧
    (∀ e ∈ ((cobaltNew cap aOpt m).run ops).nodes, e.maxAge = 0) ∧
    (∀ i t, (heapGet ((cobaltNew cap aOpt m).run ops).nodes i).staleAt t =
      false) ∧
    (∀ k i t, mapLookup ((cobaltNew cap aOpt m).run ops).cache k = some i →
      (((cobaltNew cap aOpt m).run ops).get k t).1 =
        some (heapGet ((cobaltNew cap aOpt m).run ops).nodes i).value) ∧
    (∀ tt t, ((cobaltNew cap aOpt m).run ops).tail = some tt →
      (((cobaltNew cap aOpt m).run ops).pop t).1 =
        some (heapGet ((cobaltNew cap aOpt m).run ops).nodes tt).value) := by
  have h := noTTL_run (cobaltNew cap aOpt m) ops (noTTL_new cap aOpt m hs)
  refine ⟨h.1, h.2, ?_, ?_, ?_⟩
  · intro i t
    have hz := heapGet_maxAge_zero _ i h.2
    simp [CobaltEntry.staleAt, hz]
  · intro k i t hl
    exact get_value_of_noTTL _ k t i h hl
  · intro tt t ht
    exact pop_value_of_noTTL _ t tt h ht

/-- C10 witness: a configured `maxAge` of 5 with `allowStale` absent; a `get`
long after the write still returns the value. -/
theorem C10_witness :
    (((cobaltNew none none (some 5)).run [Op.opSet "a" "1" 0]).get "a" 100).1 =
      some "1" := by
  have h := C10_no_staleness_without_allowStale none none (some 5)
    [Op.opSet "a" "1" 0] (Or.inl rfl)
  exact h.2.2.2.1 "a" 0 100 (by decide)
